import Mathlib

/-!
Verification of the triangle motion-graphic script (`triangle_mg.py`).

The script drives a host 3D application through its scene-graph API.  The
Python-side logic (the `zip` loop of `add_keyframe_sequence`, the
degree→radian conversion of `rotate_obj`, the `get(name) or new(name)`
material idiom, the choice of vertex index passed to the host's delete
operation) is embedded directly from the source.  Host operations
(`setattr` on a scene object, `keyframe_insert`, `bmesh` vertex deletion,
the material store) are modelled from the specification of the host
collaborator surface, and the definitions say so in their doc comments.
-/

namespace TriangleMG

/-! ## Keyframe sequencer: object state -/

/-- Errors of the host-facing operations, from the spec's error taxonomy. -/
inductive KErr where
  | attributeNotFound
  | lengthMismatch
  deriving DecidableEq

/-- First entry with key `p` in an association list (models Python attribute
lookup on a host object). -/
def lookupKey {β : Type _} (l : List (String × β)) (p : String) : Option β :=
  (l.find? (fun e => e.1 == p)).map (fun e => e.2)

/-- Replace the value of every entry with key `p` (models assignment to an
existing attribute of a host object). -/
def updateKey {β : Type _} (l : List (String × β)) (p : String) (v : β) :
    List (String × β) :=
  l.map (fun e => if e.1 == p then (e.1, v) else e)

/-- A scene object as the keyframe sequencer sees it: a store of named
attributes holding their current values, and the animation-channel entries
`(data_path, frame, value)`.  In well-formed states (`WF`) there is at most
one entry per `(data_path, frame)` pair. -/
structure BObj (α : Type _) where
  attrs : List (String × α)
  keys : List (String × Int × α)
  deriving DecidableEq

/-- Current value of attribute `p` on object `o`. -/
def getAttr {α : Type _} (o : BObj α) (p : String) : Option α :=
  lookupKey o.attrs p

/-- Modelled from the spec: host attribute assignment
(`setattr(obj, attribute, v)`).  Fails with `AttributeNotFound` if the
attribute path does not resolve on the object; otherwise stores the value. -/
def setattr {α : Type _} (o : BObj α) (p : String) (v : α) : Except KErr (BObj α) :=
  if (o.attrs.find? (fun e => e.1 == p)).isSome then
    .ok { o with attrs := updateKey o.attrs p v }
  else
    .error .attributeNotFound

/-- Modelled from the spec: the host's keyframe-insert operation
(`obj.keyframe_insert(data_path=p, frame=f)`).  It snapshots the attribute's
*current* value and records it at `(p, f)` on the animation channel,
replacing any keyframe already present at that time (at most one value per
time per channel).  Fails with `AttributeNotFound` if the data path does not
resolve. -/
def keyframe_insert {α : Type _} (o : BObj α) (p : String) (f : Int) :
    Except KErr (BObj α) :=
  match getAttr o p with
  | none => .error .attributeNotFound
  | some v =>
    .ok { o with
          keys := o.keys.filter (fun e => !(e.1 == p && e.2.1 == f)) ++ [(p, f, v)] }

/-- Observable host calls made by the sequencer, in order. -/
inductive KEvent (α : Type _) where
  | assign (p : String) (v : α)
  | record (p : String) (f : Int)
  deriving DecidableEq

/-- Whether an event is a keyframe insertion. -/
def KEvent.isRecord {α : Type _} : KEvent α → Bool
  | .assign _ _ => false
  | .record _ _ => true

/-- The loop body of `add_keyframe_sequence`, over the already-zipped list of
`(value, frame)` pairs: for each pair, `setattr` then `keyframe_insert`
(lines 37–39 of the source), threading the object state and collecting the
trace of host calls. -/
def seqGo {α : Type _} (attr : String) :
    BObj α → List (α × Int) → Except KErr (BObj α × List (KEvent α))
  | o, [] => .ok (o, [])
  | o, (v, f) :: rest =>
    match setattr o attr v with
    | .error e => .error e
    | .ok o1 =>
      match keyframe_insert o1 attr f with
      | .error e => .error e
      | .ok o2 =>
        match seqGo attr o2 rest with
        | .error e => .error e
        | .ok (o3, tr) => .ok (o3, .assign attr v :: .record attr f :: tr)

/-- `add_keyframe_sequence(obj, attribute, values, frames)` from the source:
`for v, f in zip(values, frames): setattr(obj, attribute, v);
obj.keyframe_insert(data_path=attribute, frame=f)`.  Python's `zip` truncates
to the shorter input, which `List.zip` reproduces exactly. -/
def add_keyframe_sequence {α : Type _} (o : BObj α) (attr : String)
    (values : List α) (frames : List Int) :
    Except KErr (BObj α × List (KEvent α)) :=
  seqGo attr o (values.zip frames)

/-- The value recorded on channel `p` of `o` at frame `f`, if any. -/
def channelVal {α : Type _} (o : BObj α) (p : String) (f : Int) : Option α :=
  (o.keys.find? (fun e => e.1 == p && e.2.1 == f)).map (fun e => e.2.2)

/-- The frames keyframed on channel `p` of `o`, in entry order. -/
def framesOf {α : Type _} (o : BObj α) (p : String) : List Int :=
  (o.keys.filter (fun e => e.1 == p)).map (fun e => e.2.1)

/-- Number of keyframes on channel `p` of `o`. -/
def channelCount {α : Type _} (o : BObj α) (p : String) : Nat :=
  (framesOf o p).length

/-- Channel well-formedness: at most one entry per `(data_path, frame)`. -/
def WF {α : Type _} (o : BObj α) : Prop :=
  (o.keys.map (fun e => (e.1, e.2.1))).Nodup

/-! ## Keyframe sequencer: step lemmas -/

/-- Updating key `p` makes `p` look up to the new value, provided `p` was
present. -/
theorem lookupKey_updateKey_self {β : Type _} (l : List (String × β)) (p : String) (v : β)
    (h : (l.find? (fun e => e.1 == p)).isSome) :
    lookupKey (updateKey l p v) p = some v := by
  induction l with
  | nil => simp [List.find?] at h
  | cons e t ih =>
    cases hp : (e.1 == p) with
    | true =>
      unfold lookupKey updateKey
      rw [List.map_cons]
      show ((((if (e.1 == p) = true then (e.1, v) else e)) ::
          t.map (fun e => if e.1 == p then (e.1, v) else e)).find?
          (fun e => e.1 == p)).map (fun e => e.2) = some v
      rw [if_pos hp, List.find?_cons_of_pos _ (by exact hp)]
      rfl
    | false =>
      rw [List.find?_cons_of_neg _ (by simp [hp])] at h
      unfold lookupKey updateKey at ih ⊢
      rw [List.map_cons]
      show ((((if (e.1 == p) = true then (e.1, v) else e)) ::
          t.map (fun e => if e.1 == p then (e.1, v) else e)).find?
          (fun e => e.1 == p)).map (fun e => e.2) = some v
      rw [if_neg (by simp [hp]), List.find?_cons_of_neg _ (by simp [hp])]
      exact ih h

/-- Successful `setattr` leaves the channels untouched and makes the
attribute read back the assigned value. -/
theorem setattr_ok {α : Type _} {o o1 : BObj α} {p : String} {v : α}
    (h : setattr o p v = .ok o1) :
    o1.keys = o.keys ∧ getAttr o1 p = some v := by
  unfold setattr at h
  split at h
  · cases h
    exact ⟨rfl, lookupKey_updateKey_self _ _ _ (by assumption)⟩
  · cases h

/-- Successful `keyframe_insert` characterised: attributes untouched, channel
entries for `(p, f)` replaced by the snapshot of the current value. -/
theorem keyframe_insert_ok {α : Type _} {o o2 : BObj α} {p : String} {f : Int} {v : α}
    (hv : getAttr o p = some v) (h : keyframe_insert o p f = .ok o2) :
    o2.attrs = o.attrs ∧
      o2.keys = o.keys.filter (fun e => !(e.1 == p && e.2.1 == f)) ++ [(p, f, v)] := by
  unfold keyframe_insert at h
  rw [hv] at h
  cases h
  exact ⟨rfl, rfl⟩

/-- `find?` ignores a filter whose predicate is implied by the search
predicate. -/
theorem find?_filter_of_imp {γ : Type _} {pred q : γ → Bool} (l : List γ)
    (h : ∀ e, pred e = true → q e = true) :
    (l.filter q).find? pred = l.find? pred := by
  induction l with
  | nil => rfl
  | cons a t ih =>
    cases hq : q a with
    | false =>
      have hp : pred a = false := by
        cases hpa : pred a with
        | false => rfl
        | true => rw [h a hpa] at hq; cases hq
      rw [List.filter_cons_of_neg (by simp [hq]),
        List.find?_cons_of_neg _ (by simp [hp]), ih]
    | true =>
      cases hpa : pred a with
      | false =>
        rw [List.filter_cons_of_pos hq, List.find?_cons_of_neg _ (by simp [hpa]),
          List.find?_cons_of_neg _ (by simp [hpa]), ih]
      | true =>
        rw [List.filter_cons_of_pos hq, List.find?_cons_of_pos _ hpa,
          List.find?_cons_of_pos _ hpa]

/-- Effect of one `keyframe_insert` on one channel slot: the inserted frame
now holds the snapshotted value, every other slot is unchanged. -/
theorem channelVal_insert {α : Type _} {o o2 : BObj α} {p : String} {f : Int} {v : α}
    (hv : getAttr o p = some v) (h : keyframe_insert o p f = .ok o2) (t : Int) :
    channelVal o2 p t = if f == t then some v else channelVal o p t := by
  obtain ⟨-, hk⟩ := keyframe_insert_ok hv h
  unfold channelVal
  rw [hk, List.find?_append]
  cases hft : (f == t) with
  | true =>
    have ht : f = t := by exact beq_iff_eq.mp hft
    subst ht
    have hnone : (o.keys.filter (fun e => !(e.1 == p && e.2.1 == f))).find?
        (fun e => e.1 == p && e.2.1 == f) = none := by
      rw [List.find?_eq_none]
      intro e he hpred
      have hq := List.of_mem_filter he
      rw [hpred] at hq
      cases hq
    rw [hnone]
    simp [List.find?]
  | false =>
    have hsingle : ([(p, f, v)].find? (fun e => e.1 == p && e.2.1 == t)) = none := by
      simp [List.find?, hft]
    rw [hsingle]
    rw [find?_filter_of_imp o.keys ?_]
    · simp
    · intro e hpred
      have h2 : (e.2.1 == t) = true := (Bool.and_eq_true_iff.mp hpred).2
      have h2' : e.2.1 = t := beq_iff_eq.mp h2
      have hf : (e.2.1 == f) = false := by
        rw [beq_eq_false_iff_ne]
        intro hc
        have hft' : (f == t) = true := beq_iff_eq.mpr (hc ▸ h2')
        simp [hft'] at hft
      simp [hf]

/-- Channel observations only depend on the channel entries. -/
theorem channelVal_congr_keys {α : Type _} {o o' : BObj α} (h : o'.keys = o.keys)
    (p : String) (t : Int) : channelVal o' p t = channelVal o p t := by
  unfold channelVal
  rw [h]

/-- One loop iteration (assign `v`, record at `f`): slot `f` now holds `v`,
every other slot is unchanged. -/
theorem channelVal_step {α : Type _} {o o1 o2 : BObj α} {attr : String} {v : α} {f : Int}
    (h1 : setattr o attr v = .ok o1) (h2 : keyframe_insert o1 attr f = .ok o2) (t : Int) :
    channelVal o2 attr t = if f == t then some v else channelVal o attr t := by
  obtain ⟨hkeys, hget⟩ := setattr_ok h1
  rw [channelVal_insert hget h2 t, channelVal_congr_keys hkeys]

/-- After one loop iteration the attribute still resolves (to the assigned
value). -/
theorem getAttr_step {α : Type _} {o o1 o2 : BObj α} {attr : String} {v : α} {f : Int}
    (h1 : setattr o attr v = .ok o1) (h2 : keyframe_insert o1 attr f = .ok o2) :
    getAttr o2 attr = some v := by
  obtain ⟨-, hget⟩ := setattr_ok h1
  obtain ⟨hattrs, -⟩ := keyframe_insert_ok hget h2
  unfold getAttr lookupKey at hget ⊢
  rw [hattrs]
  exact hget

/-- The value at one time slot after folding a `(value, frame)` list over a
channel slot: the last pair naming that frame wins. -/
def lastValAt {α : Type _} (ps : List (α × Int)) (t : Int) (init : Option α) : Option α :=
  ps.foldl (fun acc q => if q.2 == t then some q.1 else acc) init

/-! ## Keyframe sequencer: loop inductions -/

/-- Workhorse: after a successful run of the loop, the value stored at each
time slot of the channel is the fold of the pair list over the slot's prior
content — i.e. the value of the *last* pair naming that frame, or the prior
content when no pair names it. -/
theorem seqGo_channelVal {α : Type _} (attr : String) (t : Int) :
    ∀ (ps : List (α × Int)) (o o' : BObj α) (tr : List (KEvent α)),
      seqGo attr o ps = .ok (o', tr) →
      channelVal o' attr t = lastValAt ps t (channelVal o attr t)
  | [], o, o', tr, h => by
    unfold seqGo at h
    cases h
    rfl
  | (v, f) :: rest, o, o', tr, h => by
    unfold seqGo at h
    cases h1 : setattr o attr v with
    | error e => rw [h1] at h; simp only at h; cases h
    | ok o1 =>
      rw [h1] at h
      simp only at h
      cases h2 : keyframe_insert o1 attr f with
      | error e => rw [h2] at h; simp only at h; cases h
      | ok o2 =>
        rw [h2] at h
        simp only at h
        cases h3 : seqGo attr o2 rest with
        | error e => rw [h3] at h; simp only at h; cases h
        | ok pr =>
          rw [h3] at h
          simp only at h
          obtain ⟨o3, tr3⟩ := pr
          cases h
          have hrec := seqGo_channelVal attr t rest o2 o3 tr3 h3
          rw [hrec]
          unfold lastValAt
          rw [List.foldl_cons]
          have hstep := channelVal_step h1 h2 t
          rw [hstep]

/-- The trace of host calls of a successful run: for each `(value, frame)`
pair in order, one attribute assignment followed by one keyframe
insertion. -/
theorem seqGo_trace {α : Type _} (attr : String) :
    ∀ (ps : List (α × Int)) (o o' : BObj α) (tr : List (KEvent α)),
      seqGo attr o ps = .ok (o', tr) →
      tr = ps.flatMap (fun q => [KEvent.assign attr q.1, KEvent.record attr q.2])
  | [], o, o', tr, h => by
    unfold seqGo at h
    cases h
    rfl
  | (v, f) :: rest, o, o', tr, h => by
    unfold seqGo at h
    cases h1 : setattr o attr v with
    | error e => rw [h1] at h; simp only at h; cases h
    | ok o1 =>
      rw [h1] at h
      simp only at h
      cases h2 : keyframe_insert o1 attr f with
      | error e => rw [h2] at h; simp only at h; cases h
      | ok o2 =>
        rw [h2] at h
        simp only at h
        cases h3 : seqGo attr o2 rest with
        | error e => rw [h3] at h; simp only at h; cases h
        | ok pr =>
          rw [h3] at h
          simp only at h
          obtain ⟨o3, tr3⟩ := pr
          cases h
          have hrec := seqGo_trace attr rest o2 o3 tr3 h3
          rw [List.flatMap_cons, ← hrec]
          rfl

/-- If the attribute resolves, the loop never fails. -/
theorem seqGo_isOk {α : Type _} (attr : String) :
    ∀ (ps : List (α × Int)) (o : BObj α) (v0 : α), getAttr o attr = some v0 →
      ∃ o' tr, seqGo attr o ps = .ok (o', tr)
  | [], o, v0, _ => ⟨o, [], rfl⟩
  | (v, f) :: rest, o, v0, hv => by
    have hset : setattr o attr v = .ok { o with attrs := updateKey o.attrs attr v } := by
      unfold setattr
      rw [if_pos]
      unfold getAttr lookupKey at hv
      cases hfind : o.attrs.find? (fun e => e.1 == attr) with
      | none => rw [hfind] at hv; simp at hv
      | some e => rfl
    obtain ⟨-, hget1⟩ := setattr_ok hset
    have hins : keyframe_insert { o with attrs := updateKey o.attrs attr v } attr f
        = .ok { attrs := updateKey o.attrs attr v,
                keys := ({ o with attrs := updateKey o.attrs attr v } : BObj α).keys.filter
                    (fun e => !(e.1 == attr && e.2.1 == f)) ++ [(attr, f, v)] } := by
      unfold keyframe_insert
      rw [hget1]
    have hget2 := getAttr_step hset hins
    obtain ⟨o', tr, hrest⟩ := seqGo_isOk attr rest _ v hget2
    refine ⟨o', .assign attr v :: .record attr f :: tr, ?_⟩
    unfold seqGo
    rw [hset]
    simp only
    rw [hins]
    simp only
    rw [hrest]

/-- If the attribute does not resolve and at least one pair is processed, the
loop fails with `AttributeNotFound` before inserting anything. -/
theorem seqGo_error {α : Type _} (attr : String) (o : BObj α) (v : α) (f : Int)
    (rest : List (α × Int)) (hv : getAttr o attr = none) :
    seqGo attr o ((v, f) :: rest) = .error .attributeNotFound := by
  have hset : setattr o attr v = .error .attributeNotFound := by
    unfold setattr
    rw [if_neg]
    unfold getAttr lookupKey at hv
    cases hfind : o.attrs.find? (fun e => e.1 == attr) with
    | none => simp [hfind]
    | some e => rw [hfind] at hv; cases hv
  unfold seqGo
  rw [hset]

/-! ## Keyframe sequencer: counting and last-write-wins -/

/-- A fold over pairs none of which name frame `t` leaves the slot alone. -/
theorem lastValAt_no_match {α : Type _} (ps : List (α × Int)) (t : Int) (init : Option α)
    (h : ∀ q ∈ ps, (q.2 == t) = false) : lastValAt ps t init = init := by
  induction ps generalizing init with
  | nil => rfl
  | cons a rest ih =>
    unfold lastValAt at ih ⊢
    rw [List.foldl_cons, if_neg (by simp [h a (List.mem_cons_self a rest)])]
    exact ih init (fun q hq => h q (List.mem_cons_of_mem _ hq))

/-- If the last pair naming frame `t` carries value `v`, the fold leaves `some
v` in the slot. -/
theorem lastValAt_last {α : Type _} (l₁ l₂ : List (α × Int)) (v : α) (t : Int)
    (init : Option α) (h : ∀ q ∈ l₂, (q.2 == t) = false) :
    lastValAt (l₁ ++ (v, t) :: l₂) t init = some v := by
  unfold lastValAt
  rw [List.foldl_append, List.foldl_cons, if_pos (by simp : (((v, t).2 == t) = true))]
  exact lastValAt_no_match l₂ t (some v) h

/-- Frame lists only depend on the channel entries. -/
theorem framesOf_congr_keys {α : Type _} {o o' : BObj α} (h : o'.keys = o.keys)
    (p : String) : framesOf o' p = framesOf o p := by
  unfold framesOf
  rw [h]

/-- Inserting a frame that is not yet keyframed on the channel appends it to
the channel's frame list (no existing entry is displaced). -/
theorem framesOf_insert_fresh {α : Type _} {o o2 : BObj α} {p : String} {f : Int} {v : α}
    (hv : getAttr o p = some v) (h : keyframe_insert o p f = .ok o2)
    (hfresh : f ∉ framesOf o p) :
    framesOf o2 p = framesOf o p ++ [f] := by
  obtain ⟨-, hk⟩ := keyframe_insert_ok hv h
  have hQ : o.keys.filter (fun e => !(e.1 == p && e.2.1 == f)) = o.keys := by
    rw [List.filter_eq_self]
    intro e he
    cases hand : (e.1 == p && e.2.1 == f) with
    | false => simp [hand]
    | true =>
      exfalso
      obtain ⟨h1, h2⟩ := Bool.and_eq_true_iff.mp hand
      apply hfresh
      unfold framesOf
      have hmem : e ∈ o.keys.filter (fun e => e.1 == p) := List.mem_filter.mpr ⟨he, h1⟩
      have hmem2 : e.2.1 ∈ (o.keys.filter (fun e => e.1 == p)).map (fun e => e.2.1) :=
        List.mem_map_of_mem (fun e => e.2.1) hmem
      rwa [beq_iff_eq.mp h2] at hmem2
  unfold framesOf
  rw [hk, hQ, List.filter_append, List.map_append]
  congr 1
  simp

/-- Running the loop on pairwise-distinct frames none of which is already
keyframed appends exactly those frames to the channel, in order. -/
theorem seqGo_framesOf_fresh {α : Type _} (attr : String) :
    ∀ (ps : List (α × Int)) (o o' : BObj α) (tr : List (KEvent α)),
      seqGo attr o ps = .ok (o', tr) →
      (∀ q ∈ ps, q.2 ∉ framesOf o attr) →
      (ps.map (fun q => q.2)).Nodup →
      framesOf o' attr = framesOf o attr ++ ps.map (fun q => q.2)
  | [], o, o', tr, h, _, _ => by
    unfold seqGo at h
    cases h
    simp
  | (v, f) :: rest, o, o', tr, h, hfresh, hnd => by
    unfold seqGo at h
    cases h1 : setattr o attr v with
    | error e => rw [h1] at h; simp only at h; cases h
    | ok o1 =>
      rw [h1] at h
      simp only at h
      cases h2 : keyframe_insert o1 attr f with
      | error e => rw [h2] at h; simp only at h; cases h
      | ok o2 =>
        rw [h2] at h
        simp only at h
        cases h3 : seqGo attr o2 rest with
        | error e => rw [h3] at h; simp only at h; cases h
        | ok pr =>
          rw [h3] at h
          simp only at h
          obtain ⟨o3, tr3⟩ := pr
          cases h
          obtain ⟨hkeys, hget1⟩ := setattr_ok h1
          have hof1 : framesOf o1 attr = framesOf o attr := framesOf_congr_keys hkeys attr
          have hfr1 : f ∉ framesOf o1 attr := by
            rw [hof1]
            exact hfresh (v, f) (List.mem_cons_self _ _)
          have hof2 : framesOf o2 attr = framesOf o attr ++ [f] := by
            rw [framesOf_insert_fresh hget1 h2 hfr1, hof1]
          rw [List.map_cons, List.nodup_cons] at hnd
          have hrec := seqGo_framesOf_fresh attr rest o2 o3 tr3 h3 ?_ hnd.2
          · rw [hrec, hof2, List.map_cons, List.append_assoc]
            rfl
          · intro q hq
            rw [hof2, List.mem_append]
            rintro (hin | hin)
            · exact hfresh q (List.mem_cons_of_mem _ hq) hin
            · rw [List.mem_singleton] at hin
              exact hnd.1 (hin ▸ List.mem_map_of_mem (fun q => q.2) hq)

/-- Each processed pair contributes exactly one keyframe-insert host call. -/
theorem records_flatMap {α : Type _} (attr : String) (ps : List (α × Int)) :
    ((ps.flatMap (fun q => [KEvent.assign attr q.1, KEvent.record attr q.2])).filter
        KEvent.isRecord).length = ps.length := by
  induction ps with
  | nil => rfl
  | cons a rest ih =>
    rw [List.flatMap_cons, List.filter_append, List.length_append, ih]
    simp [KEvent.isRecord, Nat.add_comm]

/-- With pairwise-distinct frames, the `i`-th pair's value is the value
recorded at the `i`-th frame after the run. -/
theorem seq_value_at_index {α : Type _} {o o' : BObj α} {attr : String}
    {values : List α} {frames : List Int} {tr : List (KEvent α)}
    (hlen : values.length = frames.length) (hnd : frames.Nodup)
    (hrun : seqGo attr o (values.zip frames) = .ok (o', tr))
    (i : Nat) (v : α) (t : Int) (hv : values[i]? = some v) (ht : frames[i]? = some t) :
    channelVal o' attr t = some v := by
  have hA := seqGo_channelVal attr t (values.zip frames) o o' tr hrun
  have hget : (values.zip frames)[i]? = some (v, t) :=
    List.getElem?_zip_eq_some.mpr ⟨hv, ht⟩
  obtain ⟨hi, hge⟩ := List.getElem?_eq_some.mp hget
  obtain ⟨hti, htge⟩ := List.getElem?_eq_some.mp ht
  have hdecomp : values.zip frames
      = (values.zip frames).take i ++ (v, t) :: (values.zip frames).drop (i + 1) := by
    conv_lhs => rw [← List.take_append_drop i (values.zip frames)]
    congr 1
    rw [List.drop_eq_getElem_cons hi]
    congr 1
  have hfdecomp : frames = frames.take i ++ t :: frames.drop (i + 1) := by
    conv_lhs => rw [← List.take_append_drop i frames]
    congr 1
    rw [List.drop_eq_getElem_cons hti]
    congr 1
  rw [hfdecomp] at hnd
  have htnotin : t ∉ frames.drop (i + 1) :=
    (List.nodup_cons.mp (List.Nodup.of_append_right hnd)).1
  have hnomatch : ∀ q ∈ (values.zip frames).drop (i + 1), (q.2 == t) = false := by
    intro q hq
    have hq2 : q.2 ∈ ((values.zip frames).drop (i + 1)).map Prod.snd :=
      List.mem_map_of_mem Prod.snd hq
    rw [List.map_drop, List.map_snd_zip values frames (le_of_eq hlen.symm)] at hq2
    rw [beq_eq_false_iff_ne]
    intro hqt
    rw [hqt] at hq2
    exact htnotin hq2
  rw [hdecomp] at hA
  rw [hA]
  exact lastValAt_last _ _ v t _ hnomatch

/-! ## Keyframe sequencer: the claims -/

/-- Claim C1 counterexample: a call with 3 values and 4 times does not fail
with any error — in particular not `LengthMismatch` — and inserts 3 keyframes
(`zip` silently truncates), contradicting "fails … and performs zero keyframe
insertions". -/
theorem C1_counterexample :
    add_keyframe_sequence (α := ℚ) ⟨[("scale", 0)], []⟩ "scale" [1, 2, 3] [10, 20, 30, 40]
        = .ok (⟨[("scale", 3)], [("scale", 10, 1), ("scale", 20, 2), ("scale", 30, 3)]⟩,
            [.assign "scale" 1, .record "scale" 10, .assign "scale" 2, .record "scale" 20,
             .assign "scale" 3, .record "scale" 30])
    ∧ channelCount (α := ℚ)
        ⟨[("scale", 3)], [("scale", 10, 1), ("scale", 20, 2), ("scale", 30, 3)]⟩ "scale" = 3 :=
  ⟨rfl, rfl⟩

/-- Claim C1 as amended: with mismatched lengths the sequencer raises no
error; whenever the attribute resolves it succeeds and performs exactly
`min len(values) len(times)` keyframe insertions — the extra entries of the
longer list are silently dropped by `zip`. -/
theorem C1_amended {α : Type _} (o : BObj α) (attr : String) (values : List α)
    (frames : List Int) (v0 : α) (hv : getAttr o attr = some v0) :
    ∃ o' tr, add_keyframe_sequence o attr values frames = .ok (o', tr)
      ∧ (tr.filter KEvent.isRecord).length = min values.length frames.length := by
  obtain ⟨o', tr, h⟩ := seqGo_isOk attr (values.zip frames) o v0 hv
  refine ⟨o', tr, h, ?_⟩
  rw [seqGo_trace attr _ o o' tr h, records_flatMap, List.length_zip]

/-- Witness for `C1_amended` at mismatched lengths 3 vs 4. -/
theorem C1_amended_witness :
    getAttr (α := ℚ) ⟨[("scale", 0)], []⟩ "scale" = some 0
    ∧ ∃ o' tr,
        add_keyframe_sequence (α := ℚ) ⟨[("scale", 0)], []⟩ "scale" [1, 2, 3] [10, 20, 30, 40]
          = .ok (o', tr)
        ∧ (tr.filter KEvent.isRecord).length = min 3 4 :=
  ⟨rfl, C1_amended ⟨[("scale", 0)], []⟩ "scale" [1, 2, 3] [10, 20, 30, 40] 0 rfl⟩

/-- Claim C2 counterexample: equal-length input with a repeated time
(`values = [1, 2]`, `times = [10, 10]`, starting from an empty channel): the
run succeeds, the later value 2 wins at time 10, but the channel ends with 1
keyframe, not `L = 2` — so "keyframe count increases by exactly L" fails. -/
theorem C2_counterexample :
    add_keyframe_sequence (α := ℚ) ⟨[("s", 0)], []⟩ "s" [1, 2] [10, 10]
        = .ok (⟨[("s", 2)], [("s", 10, 2)]⟩,
            [.assign "s" 1, .record "s" 10, .assign "s" 2, .record "s" 10])
    ∧ channelVal (α := ℚ) ⟨[("s", 2)], [("s", 10, 2)]⟩ "s" 10 = some 2
    ∧ ¬ (channelCount (α := ℚ) ⟨[("s", 2)], [("s", 10, 2)]⟩ "s"
          = channelCount (α := ℚ) ⟨[("s", 0)], []⟩ "s" + 2) :=
  ⟨rfl, rfl, by decide⟩

/-- Claim C2 as amended: for equal-length `values`/`times`, after a
successful run (a) every time slot holds the value of the *last* input pair
naming it (last-write-wins, no error on repeats), (b) slots at untouched
times are unaltered, (c) when the times are pairwise distinct the value
recorded at `times[i]` is `values[i]` for every `i`, and (d) when moreover no
input time is already keyframed on the channel, the keyframe count increases
by exactly `L`; with repeated or already-present times it increases by less
(one keyframe per distinct time). -/
theorem C2_amended {α : Type _} {o o' : BObj α} {attr : String} {values : List α}
    {frames : List Int} {tr : List (KEvent α)}
    (hlen : values.length = frames.length)
    (hrun : add_keyframe_sequence o attr values frames = .ok (o', tr)) :
    (∀ t, channelVal o' attr t = lastValAt (values.zip frames) t (channelVal o attr t))
    ∧ (∀ t, t ∉ frames → channelVal o' attr t = channelVal o attr t)
    ∧ (frames.Nodup → ∀ (i : Nat) (v : α) (t : Int), values[i]? = some v → frames[i]? = some t →
        channelVal o' attr t = some v)
    ∧ (frames.Nodup → (∀ t ∈ frames, t ∉ framesOf o attr) →
        channelCount o' attr = channelCount o attr + frames.length) := by
  refine ⟨?_, ?_, ?_, ?_⟩
  · intro t
    exact seqGo_channelVal attr t (values.zip frames) o o' tr hrun
  · intro t hnt
    rw [seqGo_channelVal attr t (values.zip frames) o o' tr hrun]
    apply lastValAt_no_match
    intro q hq
    have hq2 : q.2 ∈ (values.zip frames).map Prod.snd := List.mem_map_of_mem Prod.snd hq
    rw [List.map_snd_zip values frames (le_of_eq hlen.symm)] at hq2
    rw [beq_eq_false_iff_ne]
    intro hc
    rw [hc] at hq2
    exact hnt hq2
  · intro hnd i v t hv ht
    exact seq_value_at_index hlen hnd hrun i v t hv ht
  · intro hnd hfresh
    unfold channelCount
    have hfr := seqGo_framesOf_fresh attr (values.zip frames) o o' tr hrun ?_ ?_
    · rw [hfr, List.length_append]
      congr 1
      have : ((values.zip frames).map (fun q => q.2)).length
          = ((values.zip frames).map Prod.snd).length := rfl
      rw [this, List.map_snd_zip values frames (le_of_eq hlen.symm)]
    · intro q hq
      have hq2 : q.2 ∈ (values.zip frames).map Prod.snd := List.mem_map_of_mem Prod.snd hq
      rw [List.map_snd_zip values frames (le_of_eq hlen.symm)] at hq2
      exact hfresh q.2 hq2
    · have : (values.zip frames).map (fun q => q.2) = (values.zip frames).map Prod.snd := rfl
      rw [this, List.map_snd_zip values frames (le_of_eq hlen.symm)]
      exact hnd

/-- Witness for `C2_amended` on a concrete distinct-times run. -/
theorem C2_amended_witness :
    ([(1 : ℚ), 2].length = ([10, 20] : List Int).length)
    ∧ ((∀ t, channelVal (α := ℚ) ⟨[("s", 2)], [("s", 10, 1), ("s", 20, 2)]⟩ "s" t
          = lastValAt ([(1 : ℚ), 2].zip [10, 20]) t
              (channelVal (α := ℚ) ⟨[("s", 0)], []⟩ "s" t))
        ∧ (∀ t, t ∉ ([10, 20] : List Int) →
            channelVal (α := ℚ) ⟨[("s", 2)], [("s", 10, 1), ("s", 20, 2)]⟩ "s" t
              = channelVal (α := ℚ) ⟨[("s", 0)], []⟩ "s" t)
        ∧ (([10, 20] : List Int).Nodup → ∀ (i : Nat) (v : ℚ) (t : Int), [(1 : ℚ), 2][i]? = some v →
            ([10, 20] : List Int)[i]? = some t →
            channelVal (α := ℚ) ⟨[("s", 2)], [("s", 10, 1), ("s", 20, 2)]⟩ "s" t = some v)
        ∧ (([10, 20] : List Int).Nodup →
            (∀ t ∈ ([10, 20] : List Int), t ∉ framesOf (α := ℚ) ⟨[("s", 0)], []⟩ "s") →
            channelCount (α := ℚ) ⟨[("s", 2)], [("s", 10, 1), ("s", 20, 2)]⟩ "s"
              = channelCount (α := ℚ) ⟨[("s", 0)], []⟩ "s" + ([10, 20] : List Int).length)) :=
  ⟨rfl, @C2_amended ℚ ⟨[("s", 0)], []⟩ ⟨[("s", 2)], [("s", 10, 1), ("s", 20, 2)]⟩
    "s" [1, 2] [10, 20]
    [.assign "s" 1, .record "s" 10, .assign "s" 2, .record "s" 20] rfl rfl⟩

/-- Claim C3: for every processed pair the sequencer first assigns the value
to the attribute and only then records the keyframe: the host-call trace of a
successful run is exactly `assign values[i]; record times[i]` for the pairs
in index order.  (That the keyframe snapshots the just-assigned value is the
content of `keyframe_insert` reading the current attribute, and of
`C2_amended` part (a).) -/
theorem C3_assign_then_record {α : Type _} {o o' : BObj α} {attr : String}
    {values : List α} {frames : List Int} {tr : List (KEvent α)}
    (hrun : add_keyframe_sequence o attr values frames = .ok (o', tr)) :
    tr = (values.zip frames).flatMap
        (fun q => [KEvent.assign attr q.1, KEvent.record attr q.2]) :=
  seqGo_trace attr (values.zip frames) o o' tr hrun

/-- Witness for `C3_assign_then_record` on a concrete run. -/
theorem C3_witness :
    add_keyframe_sequence (α := ℚ) ⟨[("s", 0)], []⟩ "s" [1, 2] [10, 20]
        = .ok (⟨[("s", 2)], [("s", 10, 1), ("s", 20, 2)]⟩,
            [.assign "s" 1, .record "s" 10, .assign "s" 2, .record "s" 20])
    ∧ ([KEvent.assign "s" (1 : ℚ), .record "s" 10, .assign "s" 2, .record "s" 20]
        = ([(1 : ℚ), 2].zip [10, 20]).flatMap
            (fun q => [KEvent.assign "s" q.1, KEvent.record "s" q.2])) :=
  ⟨rfl, @C3_assign_then_record ℚ ⟨[("s", 0)], []⟩ ⟨[("s", 2)], [("s", 10, 1), ("s", 20, 2)]⟩
    "s" [1, 2] [10, 20]
    [.assign "s" 1, .record "s" 10, .assign "s" 2, .record "s" 20] rfl⟩

/-- The X-ray triangle object right before the scale keyframes are added
(lines 203–207 of the source): it has a live `scale` attribute; its `scale`
channel is empty. -/
def xrayScaleObj : BObj (List ℚ) :=
  ⟨[("scale", [3/4, 3/4, 3/4])], []⟩

/-- Claim C6: `add_keyframe_sequence(obj, "scale", [[0.75]*3, [0.5]*3, [0]*3,
[0.75]*3], [10, 60, 100, 250])` succeeds, produces exactly 4 keyframes at
frames 10, 60, 100 and 250 holding those literal vectors, and leaves the live
`scale` attribute equal to the last value applied, `[0.75, 0.75, 0.75]`. -/
theorem C6_scale_scenario :
    add_keyframe_sequence xrayScaleObj "scale"
        [[3/4, 3/4, 3/4], [1/2, 1/2, 1/2], [0, 0, 0], [3/4, 3/4, 3/4]]
        [10, 60, 100, 250]
      = .ok (⟨[("scale", [3/4, 3/4, 3/4])],
              [("scale", 10, [3/4, 3/4, 3/4]), ("scale", 60, [1/2, 1/2, 1/2]),
               ("scale", 100, [0, 0, 0]), ("scale", 250, [3/4, 3/4, 3/4])]⟩,
            [.assign "scale" [3/4, 3/4, 3/4], .record "scale" 10,
             .assign "scale" [1/2, 1/2, 1/2], .record "scale" 60,
             .assign "scale" [0, 0, 0], .record "scale" 100,
             .assign "scale" [3/4, 3/4, 3/4], .record "scale" 250])
    ∧ channelCount (α := List ℚ)
        ⟨[("scale", [3/4, 3/4, 3/4])],
         [("scale", 10, [3/4, 3/4, 3/4]), ("scale", 60, [1/2, 1/2, 1/2]),
          ("scale", 100, [0, 0, 0]), ("scale", 250, [3/4, 3/4, 3/4])]⟩ "scale" = 4
    ∧ framesOf (α := List ℚ)
        ⟨[("scale", [3/4, 3/4, 3/4])],
         [("scale", 10, [3/4, 3/4, 3/4]), ("scale", 60, [1/2, 1/2, 1/2]),
          ("scale", 100, [0, 0, 0]), ("scale", 250, [3/4, 3/4, 3/4])]⟩ "scale"
        = [10, 60, 100, 250]
    ∧ getAttr (α := List ℚ)
        ⟨[("scale", [3/4, 3/4, 3/4])],
         [("scale", 10, [3/4, 3/4, 3/4]), ("scale", 60, [1/2, 1/2, 1/2]),
          ("scale", 100, [0, 0, 0]), ("scale", 250, [3/4, 3/4, 3/4])]⟩ "scale"
        = some [3/4, 3/4, 3/4] :=
  ⟨rfl, rfl, rfl, rfl⟩

/-- Claim C7 counterexample: with an unresolvable attribute path but *empty*
`values`/`times`, the loop body never runs, so the call succeeds instead of
failing with `AttributeNotFound` — the claim's "for every object and every
attribute_path" is too strong. -/
theorem C7_counterexample :
    getAttr (α := ℚ) ⟨[], []⟩ "missing" = none
    ∧ add_keyframe_sequence (α := ℚ) ⟨[], []⟩ "missing" [] [] = .ok (⟨[], []⟩, []) :=
  ⟨rfl, rfl⟩

/-- Claim C7 as amended: whenever the attribute path does not resolve on the
object *and at least one `(value, time)` pair is processed* (both lists
nonempty), the sequencer fails with `AttributeNotFound`; with an empty pair
list it succeeds having done nothing. -/
theorem C7_amended {α : Type _} (o : BObj α) (attr : String) (values : List α)
    (frames : List Int) (hv : getAttr o attr = none)
    (hne : values.zip frames ≠ []) :
    add_keyframe_sequence o attr values frames = .error .attributeNotFound := by
  cases hps : values.zip frames with
  | nil => exact absurd hps hne
  | cons q rest =>
    obtain ⟨v, f⟩ := q
    unfold add_keyframe_sequence
    rw [hps]
    exact seqGo_error attr o v f rest hv

/-- Witness for `C7_amended` at a concrete unresolvable attribute. -/
theorem C7_amended_witness :
    getAttr (α := ℚ) ⟨[("scale", 0)], []⟩ "rotation" = none
    ∧ ([(1 : ℚ)].zip ([20] : List Int) ≠ [])
    ∧ add_keyframe_sequence (α := ℚ) ⟨[("scale", 0)], []⟩ "rotation" [1] [20]
        = .error .attributeNotFound :=
  ⟨rfl, by simp,
    C7_amended ⟨[("scale", 0)], []⟩ "rotation" [1] [20] rfl (by simp)⟩

/-! ## Geometry editor -/

/-- A polyhedral mesh: an ordered sequence of vertices and a list of faces,
each an ordered tuple of vertices. -/
structure Mesh (V : Type _) where
  verts : List V
  faces : List (List V)
  deriving DecidableEq

/-- The vertices selected for deletion: those whose position in the vertex
sequence lies in `S` (the script passes `[verts[3]]`, line 128). -/
def removedVerts {V : Type _} [DecidableEq V] (m : Mesh V) (S : Finset ℕ) : List V :=
  (m.verts.enum.filter (fun e => decide (e.1 ∈ S))).map (fun e => e.2)

/-- Modelled from the spec: the host's
`bmesh.ops.delete(bm, geom=[verts[i] for i in S], context='VERTS')`
(lines 119–132) — removes each selected vertex and every face incident to a
removed vertex; all other vertices and faces are preserved unchanged,
including their relative order; no re-triangulation or boundary repair. -/
def derive_mesh {V : Type _} [DecidableEq V] (m : Mesh V) (S : Finset ℕ) : Mesh V :=
  { verts := (m.verts.enum.filter (fun e => !decide (e.1 ∈ S))).map (fun e => e.2),
    faces := m.faces.filter (fun face => !face.any (fun v => decide (v ∈ removedVerts m S))) }

/-- Face `f` is incident to vertex index `i` of mesh `m`. -/
def incident {V : Type _} (m : Mesh V) (i : ℕ) (f : List V) : Prop :=
  ∃ v, m.verts[i]? = some v ∧ v ∈ f

/-- Counting a predicate and its negation partitions a list's length. -/
theorem countP_not_add {γ : Type _} (p : γ → Bool) (l : List γ) :
    List.countP (fun a => !p a) l + List.countP p l = l.length := by
  induction l with
  | nil => rfl
  | cons a t ih =>
    rw [List.countP_cons, List.countP_cons]
    cases h : p a <;> simp [h] <;> omega

/-- Membership in the deleted-vertex selection. -/
theorem mem_removedVerts {V : Type _} [DecidableEq V] (m : Mesh V) (S : Finset ℕ) (v : V) :
    v ∈ removedVerts m S ↔ ∃ i ∈ S, m.verts[i]? = some v := by
  unfold removedVerts
  rw [List.mem_map]
  constructor
  · rintro ⟨e, he, rfl⟩
    obtain ⟨henum, hs⟩ := List.mem_filter.mp he
    exact ⟨e.1, of_decide_eq_true hs, List.mem_enum_iff_getElem?.mp henum⟩
  · rintro ⟨i, hi, hv⟩
    refine ⟨(i, v), List.mem_filter.mpr ⟨List.mem_enum_iff_getElem?.mpr ?_, ?_⟩, rfl⟩
    · exact hv
    · exact decide_eq_true hi

/-- Vertex count after deletion: with in-range indices, exactly `|S|`
vertices disappear. -/
theorem derive_mesh_verts_length {V : Type _} [DecidableEq V] (m : Mesh V) (S : Finset ℕ)
    (hS : ∀ i ∈ S, i < m.verts.length) :
    (derive_mesh m S).verts.length = m.verts.length - S.card := by
  unfold derive_mesh
  rw [List.length_map, ← List.countP_eq_length_filter]
  have hsplit := countP_not_add (fun e : ℕ × V => decide (e.1 ∈ S)) m.verts.enum
  have hlen : m.verts.enum.length = m.verts.length := List.enum_length
  have hin : List.countP (fun e : ℕ × V => decide (e.1 ∈ S)) m.verts.enum = S.card := by
    have h1 : List.countP (fun e : ℕ × V => decide (e.1 ∈ S)) m.verts.enum
        = List.countP (fun i => decide (i ∈ S)) (List.range m.verts.length) := by
      rw [← List.enum_map_fst m.verts, List.countP_map]
      rfl
    rw [h1, List.countP_eq_length_filter]
    have hnd : ((List.range m.verts.length).filter (fun i => decide (i ∈ S))).Nodup :=
      (List.nodup_range m.verts.length).filter _
    have hfs : ((List.range m.verts.length).filter (fun i => decide (i ∈ S))).toFinset
        = S := by
      ext a
      rw [List.mem_toFinset, List.mem_filter, List.mem_range]
      constructor
      · rintro ⟨-, ha⟩
        exact of_decide_eq_true ha
      · intro ha
        exact ⟨hS a ha, decide_eq_true ha⟩
    rw [← List.toFinset_card_of_nodup hnd, hfs]
  omega

/-- Face set after deletion: exactly the faces not incident to any removed
index survive. -/
theorem derive_mesh_faces_mem {V : Type _} [DecidableEq V] (m : Mesh V) (S : Finset ℕ)
    (f : List V) :
    f ∈ (derive_mesh m S).faces ↔ f ∈ m.faces ∧ ¬ ∃ i ∈ S, incident m i f := by
  unfold derive_mesh
  rw [List.mem_filter]
  constructor
  · rintro ⟨hf, hb⟩
    refine ⟨hf, ?_⟩
    rintro ⟨i, hi, hinc⟩
    simp only [incident] at hinc
    obtain ⟨v, hv, hvf⟩ := hinc
    have hvr : v ∈ removedVerts m S := (mem_removedVerts m S v).mpr ⟨i, hi, hv⟩
    have hany : f.any (fun v => decide (v ∈ removedVerts m S)) = true :=
      List.any_eq_true.mpr ⟨v, hvf, decide_eq_true hvr⟩
    rw [hany] at hb
    cases hb
  · rintro ⟨hf, hn⟩
    refine ⟨hf, ?_⟩
    cases hany : f.any (fun v => decide (v ∈ removedVerts m S)) with
    | false => rfl
    | true =>
      exfalso
      obtain ⟨v, hvf, hvd⟩ := List.any_eq_true.mp hany
      obtain ⟨i, hi, hv⟩ := (mem_removedVerts m S v).mp (of_decide_eq_true hvd)
      exact hn ⟨i, hi, v, hv, hvf⟩

/-- The cone mesh produced by `bpy.ops.mesh.primitive_cone_add(vertices=3)`
(line 96): base vertices 0, 1, 2 and apex vertex 3; one triangular base face
and three side faces — a triangular-base pyramid, 4 vertices and 4 faces. -/
def pyramid : Mesh ℕ :=
  ⟨[0, 1, 2, 3], [[0, 1, 2], [0, 3, 1], [1, 3, 2], [2, 3, 0]]⟩

/-- Claim C4: with every index of `S` in range, `derive_mesh` keeps exactly
the faces not incident to a removed index and removes exactly `|S|` vertices;
in particular deleting vertex index 3 of the 4-vertex/4-face pyramid leaves 3
vertices and exactly the base face. -/
theorem C4_derive_mesh {V : Type _} [DecidableEq V] (m : Mesh V) (S : Finset ℕ)
    (hS : ∀ i ∈ S, i < m.verts.length) :
    (derive_mesh m S).verts.length = m.verts.length - S.card
    ∧ (∀ f, f ∈ (derive_mesh m S).faces ↔ f ∈ m.faces ∧ ¬ ∃ i ∈ S, incident m i f)
    ∧ (derive_mesh pyramid {3}).verts = [0, 1, 2]
    ∧ (derive_mesh pyramid {3}).faces = [[0, 1, 2]] :=
  ⟨derive_mesh_verts_length m S hS, derive_mesh_faces_mem m S, by decide, by decide⟩

/-- Witness for `C4_derive_mesh` at the pyramid with `S = {3}`. -/
theorem C4_witness :
    (∀ i ∈ ({3} : Finset ℕ), i < pyramid.verts.length)
    ∧ ((derive_mesh pyramid {3}).verts.length = pyramid.verts.length - ({3} : Finset ℕ).card
      ∧ (∀ f, f ∈ (derive_mesh pyramid {3}).faces
          ↔ f ∈ pyramid.faces ∧ ¬ ∃ i ∈ ({3} : Finset ℕ), incident pyramid i f)
      ∧ (derive_mesh pyramid {3}).verts = [0, 1, 2]
      ∧ (derive_mesh pyramid {3}).faces = [[0, 1, 2]]) :=
  ⟨by decide, C4_derive_mesh pyramid {3} (by decide)⟩

/-- Empty removal set: `derive_mesh` is the identity (all vertices and faces
preserved, including order). -/
theorem derive_mesh_empty {V : Type _} [DecidableEq V] (m : Mesh V) :
    derive_mesh m (∅ : Finset ℕ) = m := by
  unfold derive_mesh
  have hverts : m.verts.enum.filter (fun e => !decide (e.1 ∈ (∅ : Finset ℕ)))
      = m.verts.enum :=
    List.filter_eq_self.mpr (fun a _ => by simp)
  have hfaces : m.faces.filter
      (fun face => !face.any (fun v => decide (v ∈ removedVerts m (∅ : Finset ℕ))))
      = m.faces := by
    apply List.filter_eq_self.mpr
    intro f _
    have hrem : removedVerts m (∅ : Finset ℕ) = [] := by
      unfold removedVerts
      have : m.verts.enum.filter (fun e => decide (e.1 ∈ (∅ : Finset ℕ))) = [] := by
        rw [List.filter_eq_nil_iff]
        intro a _
        simp
      rw [this]
      rfl
    rw [hrem]
    cases hany : f.any (fun v => decide (v ∈ ([] : List V))) with
    | false => rfl
    | true =>
      exfalso
      obtain ⟨v, -, hvd⟩ := List.any_eq_true.mp hany
      exact (List.not_mem_nil v) (of_decide_eq_true hvd)
  rw [hverts, hfaces]
  cases m with
  | mk verts faces =>
    simp only
    congr 1
    exact List.enum_map_snd verts

/-- Claim C8: applying `derive_mesh` twice with the empty removal set returns
the mesh unchanged — empty removal is a no-op. -/
theorem C8_empty_removal_noop {V : Type _} [DecidableEq V] (m : Mesh V) :
    derive_mesh (derive_mesh m (∅ : Finset ℕ)) (∅ : Finset ℕ) = m := by
  rw [derive_mesh_empty, derive_mesh_empty]

/-- A scene object owning a transform (location, rotation, scale), material
slots, and a mesh. -/
structure SceneObject (V : Type _) where
  location : List ℚ
  rotation_euler : List ℚ
  scale : List ℚ
  materials : List String
  mesh : Mesh V
  deriving DecidableEq

/-- Modelled from the spec: the mesh-derivation step applied to the mesh's
owning object (lines 119–132): acquire a working copy (`bmesh.new()` +
`bm.from_mesh(mesh)`), delete the selected vertices (`bmesh.ops.delete`),
commit the working copy back (`bm.to_mesh(mesh)`), and release it
(`bm.free()`).  The commit writes only the object's mesh datablock. -/
def derive_mesh_obj {V : Type _} [DecidableEq V] (o : SceneObject V) (S : Finset ℕ) :
    SceneObject V :=
  let bm := o.mesh
  let bm2 := derive_mesh bm S
  { o with mesh := bm2 }

/-- Claim C5: the mesh-derivation operation commits the derived mesh back to
the owning object and leaves the object's transform (location, rotation,
scale) and material slots exactly as they were. -/
theorem C5_commit_frame {V : Type _} [DecidableEq V] (o : SceneObject V) (S : Finset ℕ) :
    (derive_mesh_obj o S).mesh = derive_mesh o.mesh S
    ∧ (derive_mesh_obj o S).location = o.location
    ∧ (derive_mesh_obj o S).rotation_euler = o.rotation_euler
    ∧ (derive_mesh_obj o S).scale = o.scale
    ∧ (derive_mesh_obj o S).materials = o.materials :=
  ⟨rfl, rfl, rfl, rfl, rfl⟩

/-! ## Rotation interface (degrees in, radians stored) -/

/-- `degToRadian(angle)` from the source (lines 13–15):
`angle*(math.pi/180)`.  The host's float type and its constant `math.pi` are
parameters of the embedding; the claim theorem instantiates them with `ℝ`
and `Real.pi`. -/
def degToRadian {K : Type _} [Field K] (pi : K) (angle : K) : K := angle * (pi / 180)

/-- `rotate_obj(name, angles)` from the source (lines 21–24):
`rotation = [degToRadian(angle) for angle in angles]` followed by
`bpy.data.objects[name].rotation_euler = rotation`.  The object store
`bpy.data.objects` is modelled as a name-indexed association list mapping a
name to that object's `rotation_euler`. -/
def rotate_obj {K : Type _} [Field K] (pi : K) (objs : List (String × List K))
    (name : String) (angles : List K) : List (String × List K) :=
  updateKey objs name (angles.map (degToRadian pi))

/-- Claim C9: `rotate_obj` stores `angles[i] * (π/180)` component-wise into
the named object's `rotation_euler`, and `degToRadian` is exactly
multiplication by `π/180` — degrees at the interface, radians in the store. -/
theorem C9_rotate_obj (objs : List (String × List ℝ)) (name : String) (angles : List ℝ)
    (h : (objs.find? (fun e => e.1 == name)).isSome = true) :
    lookupKey (rotate_obj Real.pi objs name angles) name
      = some (angles.map (fun a => a * (Real.pi / 180)))
    ∧ ∀ a : ℝ, degToRadian Real.pi a = a * (Real.pi / 180) := by
  refine ⟨?_, fun a => rfl⟩
  exact lookupKey_updateKey_self objs name (angles.map (degToRadian Real.pi)) h

/-- Witness for `C9_rotate_obj`: the camera rotation call
`rotate_obj(name, [90, 0, 0])` of line 61. -/
theorem C9_witness :
    (([("Camera", ([0, 0, 0] : List ℝ))].find? (fun e => e.1 == "Camera")).isSome = true)
    ∧ (lookupKey (rotate_obj Real.pi [("Camera", [0, 0, 0])] "Camera" [90, 0, 0]) "Camera"
        = some (([90, 0, 0] : List ℝ).map (fun a => a * (Real.pi / 180)))
      ∧ ∀ a : ℝ, degToRadian Real.pi a = a * (Real.pi / 180)) :=
  ⟨rfl, C9_rotate_obj [("Camera", [0, 0, 0])] "Camera" [90, 0, 0] rfl⟩

/-! ## Material store (get-or-create idiom) -/

/-- Modelled from the spec: `bpy.data.materials.get(name)` — the first
material with that name in the store, if any.  The store is the list of
material names in creation order. -/
def materials_get (mats : List String) (name : String) : Option String :=
  mats.find? (fun m => m == name)

/-- Modelled from the spec: `bpy.data.materials.new(name)` — creates exactly
one new material with that name and returns it. -/
def materials_new (mats : List String) (name : String) : String × List String :=
  (name, mats ++ [name])

/-- The idiom `bpy.data.materials.get(mat_name) or bpy.data.materials.new(mat_name)`
from the source (lines 68–69 and 149–150): Python's `or` keeps the result of
`get` when it found a material (materials are always truthy) and otherwise
evaluates `new`. -/
def get_or_create (mats : List String) (name : String) : String × List String :=
  match materials_get mats name with
  | some m => (m, mats)
  | none => materials_new mats name

/-- Claim C10: when a material with the name exists, `get_or_create` returns
it and leaves the store unchanged; when none exists, it creates exactly one
new material with that name; in every case the resulting number of materials
with that name is `max (previous count) 1` — the idiom never produces a
duplicate. -/
theorem C10_get_or_create (mats : List String) (name : String) :
    (name ∈ mats → get_or_create mats name = (name, mats))
    ∧ (name ∉ mats → get_or_create mats name = (name, mats ++ [name])
        ∧ (mats ++ [name]).count name = 1)
    ∧ (get_or_create mats name).2.count name = max (mats.count name) 1 := by
  have hkey : ∀ m, materials_get mats name = some m → m = name := by
    intro m hm
    unfold materials_get at hm
    have hpa : (m == name) = true := @List.find?_some String (fun m => m == name) m mats hm
    exact beq_iff_eq.mp hpa
  have hnone_iff : materials_get mats name = none ↔ name ∉ mats := by
    unfold materials_get
    rw [List.find?_eq_none]
    constructor
    · intro hall hmem
      exact hall name hmem (by simp)
    · intro hnm x hx hbeq
      rw [beq_iff_eq.mp hbeq] at hx
      exact hnm hx
  refine ⟨?_, ?_, ?_⟩
  · intro hmem
    unfold get_or_create
    cases hfind : materials_get mats name with
    | none => exact absurd hmem (hnone_iff.mp hfind)
    | some m =>
      simp only
      rw [hkey m hfind]
  · intro hnm
    unfold get_or_create
    rw [hnone_iff.mpr hnm]
    refine ⟨rfl, ?_⟩
    rw [List.count_append, List.count_eq_zero_of_not_mem hnm, List.count_singleton_self]
  · unfold get_or_create
    cases hfind : materials_get mats name with
    | none =>
      have hnm := hnone_iff.mp hfind
      simp only [materials_new]
      rw [List.count_append, List.count_eq_zero_of_not_mem hnm, List.count_singleton_self]
      decide
    | some m =>
      simp only
      have hmem : name ∈ mats := by
        rw [← hkey m hfind]
        unfold materials_get at hfind
        exact List.mem_of_find?_eq_some hfind
      have hpos : 1 ≤ mats.count name := List.count_pos_iff.mpr hmem
      omega

/-- Witness for `C10_get_or_create` at the two material names of the script,
one present and one absent. -/
theorem C10_witness :
    get_or_create ["Material"] "Material" = ("Material", ["Material"])
    ∧ get_or_create ["Material"] "X-ray" = ("X-ray", ["Material", "X-ray"])
    ∧ (["Material"] ++ ["X-ray"]).count "X-ray" = 1 := by
  have h1 := (C10_get_or_create ["Material"] "Material").1 (by simp)
  have h2 := (C10_get_or_create ["Material"] "X-ray").2.1 (by simp)
  exact ⟨h1, h2.1, h2.2⟩

end TriangleMG
